import Mathlib

/-!
# Verification of the Smart-Route core (penalized nearest-neighbor routing)

Shallow embedding of the route-construction core of the Smart-Route
repository (src/main.py and src/app.py):

* `calculate_angle` — the signed turning angle at a vertex, built from
  `math.atan2` (modelled by `Complex.arg`), `math.degrees`, and the two
  normalization while-loops of the source.
* `solve_tsp_nearest_neighbor_with_right_turn_penalty` — the greedy
  nearest-neighbor tour construction with the right-turn penalty.
  Costs are modelled as `WithTop ℚ`: `⊤` plays the role of the float
  `inf` sentinel used by the source for unreachable pairs (note that
  `inf < inf` is false, exactly as `⊤ < ⊤` is false here).  The Python
  `KeyError` raised by `unvisited.remove(next_city)` when `next_city`
  is `None` or absent is modelled by the `Option` result: `none` means
  the call raises instead of returning an order.
* `totalCost` — the total-distance aggregation
  `sum(matrix[order[i]][order[i+1]] for i in range(len(order)-1))`.
-/

/-- Travel costs: a nonnegative-or-infinite scalar.  `⊤` is the float
`inf` sentinel the source stores for unreachable pairs. -/
abbrev Cost : Type := WithTop ℚ

/-- The matrix read `matrix[i][j]` of the source. -/
def entry (matrix : List (List Cost)) (i j : ℕ) : Cost :=
  (matrix.getD i []).getD j 0

/-- The helper `to_vec(a, b)` of `calculate_angle`: the vector `b - a`. -/
def to_vec (a b : ℝ × ℝ) : ℝ × ℝ :=
  (b.1 - a.1, b.2 - a.2)

/-- The library call `math.atan2(y, x)`, idealized over the reals as the
argument of the complex number `x + y*I`, which lies in `(-π, π]` and is
`0` at the origin, as `atan2(0, 0) = 0` in the source's library. -/
noncomputable def atan2 (y x : ℝ) : ℝ :=
  Complex.arg ⟨x, y⟩

/-- The library call `math.degrees`. -/
noncomputable def degrees (x : ℝ) : ℝ :=
  x * 180 / Real.pi

/-- The first normalization loop of `calculate_angle`:
`while angle <= -180: angle += 360`. -/
noncomputable def normLoop1 (angle : ℝ) : ℝ :=
  if h : angle ≤ -180 then normLoop1 (angle + 360) else angle
  termination_by Nat.ceil ((180 - angle) / 360)
  decreasing_by
    have h360 : (0:ℝ) < 360 := by norm_num
    have ht : (1:ℝ) ≤ (180 - angle) / 360 := by
      rw [le_div_iff h360]
      linarith
    have heq : (180 - (angle + 360)) / 360 = (180 - angle) / 360 - 1 := by ring
    rw [heq]
    have h0 : (0:ℝ) ≤ (180 - angle) / 360 - 1 := by linarith
    have hstep : Nat.ceil (((180 - angle) / 360 - 1) + 1) = Nat.ceil ((180 - angle) / 360 - 1) + 1 :=
      Nat.ceil_add_one h0
    have hfix : ((180 - angle) / 360 - 1) + 1 = (180 - angle) / 360 := by ring
    rw [hfix] at hstep
    rw [hstep]
    exact Nat.lt_succ_self _

/-- The second normalization loop of `calculate_angle`:
`while angle > 180: angle -= 360`. -/
noncomputable def normLoop2 (angle : ℝ) : ℝ :=
  if h : 180 < angle then normLoop2 (angle - 360) else angle
  termination_by Nat.ceil ((angle + 180) / 360)
  decreasing_by
    have h360 : (0:ℝ) < 360 := by norm_num
    have ht : (1:ℝ) ≤ (angle + 180) / 360 := by
      rw [le_div_iff h360]
      linarith
    have heq : ((angle - 360) + 180) / 360 = (angle + 180) / 360 - 1 := by ring
    rw [heq]
    have h0 : (0:ℝ) ≤ (angle + 180) / 360 - 1 := by linarith
    have hstep : Nat.ceil (((angle + 180) / 360 - 1) + 1) = Nat.ceil ((angle + 180) / 360 - 1) + 1 :=
      Nat.ceil_add_one h0
    have hfix : ((angle + 180) / 360 - 1) + 1 = (angle + 180) / 360 := by ring
    rw [hfix] at hstep
    rw [hstep]
    exact Nat.lt_succ_self _

/-- `calculate_angle(p1, p2, p3)` of the source: the signed angle between
the vectors `p1 - p2` and `p3 - p2`, normalized into `(-180, 180]`. -/
noncomputable def calculate_angle (p1 p2 p3 : ℝ × ℝ) : ℝ :=
  let v1 := to_vec p2 p1
  let v2 := to_vec p2 p3
  let angle1 := atan2 v1.2 v1.1
  let angle2 := atan2 v2.2 v2.1
  normLoop2 (normLoop1 (degrees (angle2 - angle1)))

/-- The per-candidate cost computed inside the selection loop of
`solve_tsp_nearest_neighbor_with_right_turn_penalty`: the matrix entry
`matrix[current][city]`, plus the penalty when a previous vertex exists
and the turn angle lies strictly between -135 and -45. -/
noncomputable def stepCost (coords : List (ℝ × ℝ)) (matrix : List (List Cost))
    (right_turn_penalty : ℚ) (prev : Option ℕ) (current city : ℕ) : Cost :=
  let cost := entry matrix current city
  match prev with
  | none => cost
  | some p =>
    let angle := calculate_angle (coords.getD p (0, 0)) (coords.getD current (0, 0))
      (coords.getD city (0, 0))
    if -135 < angle ∧ angle < -45 then cost + (right_turn_penalty : Cost) else cost

/-- The inner `for city in unvisited` scan of the source: tracks the
running minimum cost and the current winner, replacing the winner only
on strict improvement (`cost < min_cost`). -/
def selectLoop (f : ℕ → Cost) : List ℕ → Cost → Option ℕ → Cost × Option ℕ
  | [], min_cost, next_city => (min_cost, next_city)
  | city :: rest, min_cost, next_city =>
    let cost := f city
    if cost < min_cost then selectLoop f rest cost (some city)
    else selectLoop f rest min_cost next_city

/-- The `while unvisited:` loop of the source.  A step starts the scan at
`min_cost = inf`, `next_city = None`; if the scan leaves `next_city` at
`None`, or produces a city not in `unvisited`, the source's
`unvisited.remove(next_city)` raises `KeyError`, modelled as `none`. -/
noncomputable def buildLoop (coords : List (ℝ × ℝ)) (matrix : List (List Cost))
    (right_turn_penalty : ℚ) (unvisited order : List ℕ) (current : ℕ) (prev : Option ℕ) :
    Option (List ℕ) :=
  if h0 : unvisited = [] then some order
  else
    match (selectLoop (stepCost coords matrix right_turn_penalty prev current)
        unvisited ⊤ none).2 with
    | none => none
    | some next_city =>
      if hmem : next_city ∈ unvisited then
        buildLoop coords matrix right_turn_penalty (unvisited.erase next_city)
          (order ++ [next_city]) next_city (some current)
      else none
  termination_by unvisited.length
  decreasing_by
    have h1 := List.length_erase_of_mem hmem
    have h2 := List.length_pos_of_mem hmem
    omega

/-- `solve_tsp_nearest_neighbor_with_right_turn_penalty(coords, matrix,
right_turn_penalty)` of the source: `n = len(matrix)`, `unvisited =
set(range(1, n))` (scanned in ascending order), `order = [0]`,
`current = 0`, `prev = None`, then the greedy selection loop. -/
noncomputable def solve_tsp_nearest_neighbor_with_right_turn_penalty
    (coords : List (ℝ × ℝ)) (matrix : List (List Cost)) (right_turn_penalty : ℚ) :
    Option (List ℕ) :=
  let n := matrix.length
  buildLoop coords matrix right_turn_penalty (List.range' 1 (n - 1)) [0] 0 none

/-- The total-distance aggregation of the source:
`sum(matrix[order[i]][order[i+1]] for i in range(len(order)-1))`. -/
def totalCost (matrix : List (List Cost)) (order : List ℕ) : Cost :=
  ((List.range (order.length - 1)).map
    (fun i => entry matrix (order.getD i 0) (order.getD (i + 1) 0))).sum

/-! ## Basic facts about the selection scan -/

theorem selectLoop_mem (f : ℕ → Cost) :
    ∀ (l : List ℕ) (m : Cost) (nc : Option ℕ) (c : ℕ),
      (selectLoop f l m nc).2 = some c → c ∈ l ∨ nc = some c := by
  intro l
  induction l with
  | nil => intro m nc c h; exact Or.inr h
  | cons x xs ih =>
    intro m nc c h
    simp only [selectLoop] at h
    by_cases hx : f x < m
    · rw [if_pos hx] at h
      rcases ih _ _ _ h with h1 | h2
      · exact Or.inl (List.mem_cons_of_mem x h1)
      · cases Option.some.inj h2
        exact Or.inl (List.mem_cons_self x xs)
    · rw [if_neg hx] at h
      rcases ih _ _ _ h with h1 | h2
      · exact Or.inl (List.mem_cons_of_mem x h1)
      · exact Or.inr h2

theorem selectLoop_acc (f : ℕ → Cost) :
    ∀ (l : List ℕ) (m : Cost) (d : ℕ),
      ∃ c, (selectLoop f l m (some d)).2 = some c ∧ (c ∈ l ∨ c = d) := by
  intro l
  induction l with
  | nil => intro m d; exact ⟨d, rfl, Or.inr rfl⟩
  | cons x xs ih =>
    intro m d
    simp only [selectLoop]
    by_cases hx : f x < m
    · rw [if_pos hx]
      obtain ⟨c, hc, hmem⟩ := ih (f x) x
      refine ⟨c, hc, Or.inl ?_⟩
      rcases hmem with h1 | h2
      · exact List.mem_cons_of_mem x h1
      · rw [h2]; exact List.mem_cons_self x xs
    · rw [if_neg hx]
      obtain ⟨c, hc, hmem⟩ := ih m d
      refine ⟨c, hc, ?_⟩
      rcases hmem with h1 | h2
      · exact Or.inl (List.mem_cons_of_mem x h1)
      · exact Or.inr h2

theorem selectLoop_finds (f : ℕ → Cost) :
    ∀ (l : List ℕ) (m : Cost) (nc : Option ℕ),
      (∃ x, x ∈ l ∧ f x < m) → ∃ c, c ∈ l ∧ (selectLoop f l m nc).2 = some c := by
  intro l
  induction l with
  | nil => intro m nc h; obtain ⟨x, hx, _⟩ := h; cases hx
  | cons x xs ih =>
    intro m nc h
    simp only [selectLoop]
    by_cases hx : f x < m
    · rw [if_pos hx]
      obtain ⟨c, hc, hmem⟩ := selectLoop_acc f xs (f x) x
      refine ⟨c, ?_, hc⟩
      rcases hmem with h1 | h2
      · exact List.mem_cons_of_mem x h1
      · rw [h2]; exact List.mem_cons_self x xs
    · rw [if_neg hx]
      obtain ⟨y, hy, hfy⟩ := h
      rcases List.mem_cons.1 hy with rfl | hy2
      · exact absurd hfy hx
      · obtain ⟨c, hc1, hc2⟩ := ih m nc ⟨y, hy2, hfy⟩
        exact ⟨c, List.mem_cons_of_mem x hc1, hc2⟩

theorem selectLoop_top (f : ℕ → Cost) :
    ∀ (l : List ℕ) (nc : Option ℕ),
      (∀ x ∈ l, f x = ⊤) → selectLoop f l ⊤ nc = (⊤, nc) := by
  intro l
  induction l with
  | nil => intro nc _; rfl
  | cons x xs ih =>
    intro nc hall
    simp only [selectLoop]
    rw [hall x (List.mem_cons_self x xs), if_neg (lt_irrefl (⊤ : Cost))]
    exact ih nc (fun y hy => hall y (List.mem_cons_of_mem x hy))

theorem selectLoop_congr (f g : ℕ → Cost) :
    ∀ (l : List ℕ) (m : Cost) (nc : Option ℕ),
      (∀ x ∈ l, f x = g x) → selectLoop f l m nc = selectLoop g l m nc := by
  intro l
  induction l with
  | nil => intro m nc _; rfl
  | cons x xs ih =>
    intro m nc hfg
    simp only [selectLoop]
    rw [hfg x (List.mem_cons_self x xs)]
    have hrest : ∀ y ∈ xs, f y = g y := fun y hy => hfg y (List.mem_cons_of_mem x hy)
    by_cases hx : g x < m
    · rw [if_pos hx, if_pos hx, ih _ _ hrest]
    · rw [if_neg hx, if_neg hx, ih _ _ hrest]

theorem selectLoop_first_min (f : ℕ → Cost) :
    ∀ (l : List ℕ) (m : Cost) (nc : Option ℕ) (c : ℕ),
      (selectLoop f l m nc).2 = some c →
      ((∀ j, j < l.length → m ≤ f (l.getD j 0)) ∧ nc = some c) ∨
      (∃ i, i < l.length ∧ l.getD i 0 = c ∧ f c < m ∧
        (∀ j, j < l.length → f c ≤ f (l.getD j 0)) ∧
        (∀ j, j < i → f c < f (l.getD j 0))) := by
  intro l
  induction l with
  | nil =>
    intro m nc c h
    exact Or.inl ⟨fun j hj => absurd hj (Nat.not_lt_zero j), h⟩
  | cons x xs ih =>
    intro m nc c h
    simp only [selectLoop] at h
    by_cases hx : f x < m
    · rw [if_pos hx] at h
      rcases ih _ _ _ h with ⟨hmin, heq⟩ | ⟨i, hi, hgi, hlt, hle, hfirst⟩
      · cases Option.some.inj heq
        refine Or.inr ⟨0, Nat.succ_pos _, rfl, hx, ?_, fun j hj => absurd hj (Nat.not_lt_zero j)⟩
        intro j hj
        cases j with
        | zero => simp
        | succ j => simpa using hmin j (Nat.lt_of_succ_lt_succ hj)
      · refine Or.inr ⟨i + 1, Nat.succ_lt_succ hi, by simpa using hgi,
          lt_trans hlt hx, ?_, ?_⟩
        · intro j hj
          cases j with
          | zero => simpa using le_of_lt hlt
          | succ j => simpa using hle j (Nat.lt_of_succ_lt_succ hj)
        · intro j hj
          cases j with
          | zero => simpa using hlt
          | succ j => simpa using hfirst j (Nat.lt_of_succ_lt_succ hj)
    · rw [if_neg hx] at h
      have hxm : m ≤ f x := le_of_not_lt hx
      rcases ih _ _ _ h with ⟨hmin, heq⟩ | ⟨i, hi, hgi, hlt, hle, hfirst⟩
      · refine Or.inl ⟨?_, heq⟩
        intro j hj
        cases j with
        | zero => simpa using hxm
        | succ j => simpa using hmin j (Nat.lt_of_succ_lt_succ hj)
      · refine Or.inr ⟨i + 1, Nat.succ_lt_succ hi, by simpa using hgi, hlt, ?_, ?_⟩
        · intro j hj
          cases j with
          | zero => simpa using le_of_lt (lt_of_lt_of_le hlt hxm)
          | succ j => simpa using hle j (Nat.lt_of_succ_lt_succ hj)
        · intro j hj
          cases j with
          | zero => simpa using lt_of_lt_of_le hlt hxm
          | succ j => simpa using hfirst j (Nat.lt_of_succ_lt_succ hj)

/-! ## Basic facts about the per-candidate cost and the greedy loop -/

theorem stepCost_none (coords : List (ℝ × ℝ)) (matrix : List (List Cost))
    (pen : ℚ) (cur city : ℕ) :
    stepCost coords matrix pen none cur city = entry matrix cur city := rfl

theorem stepCost_ne_top (coords : List (ℝ × ℝ)) (matrix : List (List Cost))
    (pen : ℚ) (prev : Option ℕ) (cur city : ℕ)
    (h : entry matrix cur city ≠ ⊤) :
    stepCost coords matrix pen prev cur city ≠ ⊤ := by
  unfold stepCost
  cases prev with
  | none => exact h
  | some p =>
    simp only []
    split
    · exact WithTop.add_ne_top.2 ⟨h, WithTop.coe_ne_top⟩
    · exact h

theorem stepCost_congr (coords : List (ℝ × ℝ)) (m1 m2 : List (List Cost))
    (pen : ℚ) (prev : Option ℕ) (cur city : ℕ)
    (h : entry m1 cur city = entry m2 cur city) :
    stepCost coords m1 pen prev cur city = stepCost coords m2 pen prev cur city := by
  unfold stepCost
  cases prev with
  | none => exact h
  | some p => simp only [h]

theorem buildLoop_nil (coords : List (ℝ × ℝ)) (matrix : List (List Cost))
    (pen : ℚ) (ord : List ℕ) (cur : ℕ) (prev : Option ℕ) :
    buildLoop coords matrix pen [] ord cur prev = some ord := by
  rw [buildLoop, dif_pos rfl]

theorem buildLoop_fail (coords : List (ℝ × ℝ)) (matrix : List (List Cost))
    (pen : ℚ) (uv ord : List ℕ) (cur : ℕ) (prev : Option ℕ)
    (h0 : uv ≠ [])
    (hsel : (selectLoop (stepCost coords matrix pen prev cur) uv ⊤ none).2 = none) :
    buildLoop coords matrix pen uv ord cur prev = none := by
  rw [buildLoop, dif_neg h0, hsel]

theorem buildLoop_step (coords : List (ℝ × ℝ)) (matrix : List (List Cost))
    (pen : ℚ) (uv ord : List ℕ) (cur : ℕ) (prev : Option ℕ) (c : ℕ)
    (h0 : uv ≠ [])
    (hsel : (selectLoop (stepCost coords matrix pen prev cur) uv ⊤ none).2 = some c)
    (hmem : c ∈ uv) :
    buildLoop coords matrix pen uv ord cur prev =
      buildLoop coords matrix pen (uv.erase c) (ord ++ [c]) c (some cur) := by
  rw [buildLoop, dif_neg h0, hsel]
  simp only [dif_pos hmem]

/-! ## Facts about the cost aggregation -/

theorem list_sum_eq_top : ∀ l : List Cost, (⊤ : Cost) ∈ l → l.sum = ⊤ := by
  intro l h
  induction l with
  | nil => cases h
  | cons x xs ih =>
    rcases List.mem_cons.1 h with h1 | h2
    · rw [List.sum_cons, ← h1, WithTop.top_add]
    · rw [List.sum_cons, ih h2, WithTop.add_top]

theorem list_range_map_sum (f : ℕ → Cost) :
    ∀ n : ℕ, ((List.range n).map f).sum = ∑ i ∈ Finset.range n, f i := by
  intro n
  induction n with
  | zero => rfl
  | succ n ih =>
    rw [List.range_succ, List.map_append, List.sum_append, Finset.sum_range_succ, ih]
    simp

/-- C3 counterexample: on the empty input (`n == 0`) the algorithm does
not return an empty order — `order` is initialized to `[0]` and the loop
never runs, so `[0]` is returned. -/
theorem empty_input_order_cex :
    solve_tsp_nearest_neighbor_with_right_turn_penalty [] [] 500 ≠ some [] := by
  have h : solve_tsp_nearest_neighbor_with_right_turn_penalty [] [] 500 = some [0] :=
    buildLoop_nil [] [] 500 [0] 0 none
  rw [h]
  simp

/-- C3 (amended): when `n == 0` (empty coordinate list and empty matrix),
`buildOrder` returns the one-element order `[0]` — the hardcoded start
index — rather than an empty order. -/
theorem empty_input_returns_start_only :
    ∀ pen : ℚ, solve_tsp_nearest_neighbor_with_right_turn_penalty [] [] pen = some [0] :=
  fun pen => buildLoop_nil [] [] pen [0] 0 none

/-- C8: `totalCost(matrix, order)` is the sum of
`matrix[order[i]][order[i+1]]` for `i` in `0 .. len(order) - 2`; it is
`0` for orders of length `< 2` (length 0 and length 1); and on the
matrix `[[0,10,20],[10,0,15],[20,15,0]]` with order `[0,1,2]` it
evaluates to `25`. -/
theorem totalCost_spec :
    (∀ (matrix : List (List Cost)) (order : List ℕ),
      totalCost matrix order =
        ∑ i ∈ Finset.range (order.length - 1),
          entry matrix (order.getD i 0) (order.getD (i + 1) 0)) ∧
    (∀ matrix : List (List Cost), totalCost matrix [] = 0) ∧
    (∀ (matrix : List (List Cost)) (x : ℕ), totalCost matrix [x] = 0) ∧
    totalCost [[0, 10, 20], [10, 0, 15], [20, 15, 0]] [0, 1, 2] = 25 := by
  refine ⟨fun matrix order => list_range_map_sum _ _, fun matrix => rfl, fun matrix x => rfl, ?_⟩
  simp only [totalCost, entry, List.range_succ, List.range_zero, List.map_append, List.map_cons,
    List.map_nil, List.sum_append, List.sum_cons, List.sum_nil, List.getD_cons_zero,
    List.getD_cons_succ, List.nil_append, List.length_cons, List.length_nil]
  norm_num

/-- C5: inside a greedy step, with no previous vertex (the very first
selection step) no candidate ever receives a penalty, and with a
previous vertex `p` the computed cost equals the matrix entry plus the
penalty exactly when the turn angle lies strictly between -135 and -45
(both bounds exclusive). -/
theorem penalty_applied_iff_right_turn :
    (∀ (coords : List (ℝ × ℝ)) (matrix : List (List Cost)) (pen : ℚ) (cur city : ℕ),
      stepCost coords matrix pen none cur city = entry matrix cur city) ∧
    (∀ (coords : List (ℝ × ℝ)) (matrix : List (List Cost)) (pen : ℚ) (p cur city : ℕ),
      pen ≠ 0 → entry matrix cur city ≠ ⊤ →
      (stepCost coords matrix pen (some p) cur city = entry matrix cur city + (pen : Cost) ↔
        (-135 < calculate_angle (coords.getD p (0, 0)) (coords.getD cur (0, 0))
            (coords.getD city (0, 0)) ∧
         calculate_angle (coords.getD p (0, 0)) (coords.getD cur (0, 0))
            (coords.getD city (0, 0)) < -45))) := by
  constructor
  · intro coords matrix pen cur city; rfl
  · intro coords matrix pen p cur city hpen htop
    obtain ⟨q, hq⟩ := WithTop.ne_top_iff_exists.1 htop
    have hadd : entry matrix cur city + (pen : Cost) ≠ entry matrix cur city := by
      rw [← hq, ← WithTop.coe_add, Ne, WithTop.coe_eq_coe]
      intro hcontra
      apply hpen
      have := add_right_cancel (a := pen) (b := q) (c := 0)
      linarith [hcontra]
    unfold stepCost
    simp only []
    by_cases hband :
        -135 < calculate_angle (coords.getD p (0, 0)) (coords.getD cur (0, 0))
            (coords.getD city (0, 0)) ∧
        calculate_angle (coords.getD p (0, 0)) (coords.getD cur (0, 0))
            (coords.getD city (0, 0)) < -45
    · rw [if_pos hband]
      exact ⟨fun _ => hband, fun _ => rfl⟩
    · rw [if_neg hband]
      exact ⟨fun h => absurd h hadd.symm.elim, fun h => absurd h hband⟩

/-- C1 counterexample: two cities whose connecting costs are both the
`inf` sentinel.  Every remaining candidate at the single greedy step has
cost `⊤`, yet the algorithm does not select one of them: the strict
`cost < min_cost` test never fires against the initial `inf`, so
`next_city` stays `None` and the call fails (Python `KeyError`),
returning no permutation at all. -/
theorem solve_all_unreachable_fails_cex :
    solve_tsp_nearest_neighbor_with_right_turn_penalty [(0, 0), (0, 1)]
      [[0, ⊤], [⊤, 0]] 500 = none := by
  show buildLoop [(0, 0), (0, 1)] [[0, ⊤], [⊤, 0]] 500 (List.range' 1 1) [0] 0 none = none
  apply buildLoop_fail
  · decide
  · decide

/-- C1 (amended): when, at some greedy step, every remaining candidate's
(possibly penalized) cost is the `inf` sentinel, the scan selects no
city (`next_city` stays `None`) and `buildOrder` fails with a `KeyError`
instead of returning a permutation; and `totalCost` over any order
containing a `+∞` edge evaluates to `+∞`. -/
theorem unreachable_step_fails_and_totalCost_top :
    (∀ (coords : List (ℝ × ℝ)) (matrix : List (List Cost)) (pen : ℚ)
      (unvisited order : List ℕ) (cur : ℕ) (prev : Option ℕ),
      unvisited ≠ [] →
      (∀ c ∈ unvisited, stepCost coords matrix pen prev cur c = ⊤) →
      buildLoop coords matrix pen unvisited order cur prev = none) ∧
    (∀ (matrix : List (List Cost)) (order : List ℕ) (i : ℕ),
      i + 1 < order.length →
      entry matrix (order.getD i 0) (order.getD (i + 1) 0) = ⊤ →
      totalCost matrix order = ⊤) := by
  constructor
  · intro coords matrix pen uv ord cur prev hne hall
    apply buildLoop_fail coords matrix pen uv ord cur prev hne
    rw [selectLoop_top _ _ _ hall]
  · intro matrix ord i hi htop
    apply list_sum_eq_top
    rw [List.mem_map]
    exact ⟨i, List.mem_range.2 (by omega), htop⟩

/-- Witness for C1: the amended theorem applied at the concrete failing
instance of the counterexample. -/
theorem unreachable_step_fails_and_totalCost_top_witness :
    (([1] : List ℕ) ≠ [] ∧
      (∀ c ∈ ([1] : List ℕ),
        stepCost [((0 : ℝ), (0 : ℝ)), (0, 1)] [[0, ⊤], [⊤, 0]] 500 none 0 c = ⊤) ∧
      buildLoop [((0 : ℝ), (0 : ℝ)), (0, 1)] [[0, ⊤], [⊤, 0]] 500 [1] [0] 0 none = none) ∧
    (0 + 1 < ([0, 1] : List ℕ).length ∧
      entry [[0, ⊤], [⊤, 0]] (([0, 1] : List ℕ).getD 0 0) (([0, 1] : List ℕ).getD (0 + 1) 0) = ⊤ ∧
      totalCost [[0, ⊤], [⊤, 0]] [0, 1] = ⊤) :=
  ⟨⟨by decide, by decide,
    unreachable_step_fails_and_totalCost_top.1 _ _ _ _ _ _ _ (by decide) (by decide)⟩,
   ⟨by decide, by decide,
    unreachable_step_fails_and_totalCost_top.2 _ _ 0 (by decide) (by decide)⟩⟩

/-! ## Facts about the angle normalization loops -/

theorem normLoop1_gt (a : ℝ) : -180 < normLoop1 a := by
  induction a using normLoop1.induct with
  | case1 a h ih =>
    rw [normLoop1, dif_pos h]
    exact ih
  | case2 a h =>
    rw [normLoop1, dif_neg h]
    linarith [lt_of_not_le h]

theorem normLoop1_shift (a : ℝ) : ∃ k : ℤ, normLoop1 a = a + 360 * k := by
  induction a using normLoop1.induct with
  | case1 a h ih =>
    obtain ⟨k, hk⟩ := ih
    refine ⟨k + 1, ?_⟩
    rw [normLoop1, dif_pos h, hk]
    push_cast
    ring
  | case2 a h =>
    refine ⟨0, ?_⟩
    rw [normLoop1, dif_neg h]
    push_cast
    ring

theorem normLoop2_le (a : ℝ) : normLoop2 a ≤ 180 := by
  induction a using normLoop2.induct with
  | case1 a h ih =>
    rw [normLoop2, dif_pos h]
    exact ih
  | case2 a h =>
    rw [normLoop2, dif_neg h]
    linarith [le_of_not_lt h]

theorem normLoop2_gt_of_gt (a : ℝ) (ha : -180 < a) : -180 < normLoop2 a := by
  induction a using normLoop2.induct with
  | case1 a h ih =>
    rw [normLoop2, dif_pos h]
    exact ih (by linarith)
  | case2 a h =>
    rw [normLoop2, dif_neg h]
    exact ha

theorem normLoop2_shift (a : ℝ) : ∃ k : ℤ, normLoop2 a = a + 360 * k := by
  induction a using normLoop2.induct with
  | case1 a h ih =>
    obtain ⟨k, hk⟩ := ih
    refine ⟨k - 1, ?_⟩
    rw [normLoop2, dif_pos h, hk]
    push_cast
    ring
  | case2 a h =>
    refine ⟨0, ?_⟩
    rw [normLoop2, dif_neg h]
    push_cast
    ring

theorem wrap_bounds (a : ℝ) :
    -180 < normLoop2 (normLoop1 a) ∧ normLoop2 (normLoop1 a) ≤ 180 :=
  ⟨normLoop2_gt_of_gt _ (normLoop1_gt a), normLoop2_le _⟩

theorem wrap_shift (a : ℝ) : ∃ k : ℤ, normLoop2 (normLoop1 a) = a + 360 * k := by
  obtain ⟨k1, hk1⟩ := normLoop1_shift a
  obtain ⟨k2, hk2⟩ := normLoop2_shift (normLoop1 a)
  refine ⟨k1 + k2, ?_⟩
  rw [hk2, hk1]
  push_cast
  ring

theorem wrap_unique (x y : ℝ) (hx1 : -180 < x) (hx2 : x ≤ 180)
    (hy1 : -180 < y) (hy2 : y ≤ 180) (k : ℤ) (h : x - y = 360 * k) : x = y := by
  have hk1 : (k : ℝ) < 1 := by nlinarith
  have hk2 : (-1 : ℝ) < k := by nlinarith
  have hk0 : k = 0 := by
    have h1 : k < 1 := by exact_mod_cast hk1
    have h2 : -1 < k := by exact_mod_cast hk2
    omega
  rw [hk0] at h
  push_cast at h
  linarith

theorem wrap_neg (a : ℝ) :
    normLoop2 (normLoop1 (-a)) =
      if normLoop2 (normLoop1 a) = 180 then 180 else -(normLoop2 (normLoop1 a)) := by
  obtain ⟨hx1, hx2⟩ := wrap_bounds a
  obtain ⟨hy1, hy2⟩ := wrap_bounds (-a)
  obtain ⟨k1, hk1⟩ := wrap_shift a
  obtain ⟨k2, hk2⟩ := wrap_shift (-a)
  by_cases h : normLoop2 (normLoop1 a) = 180
  · rw [if_pos h]
    have ha : a = 180 - 360 * k1 := by
      rw [h] at hk1
      linarith
    refine wrap_unique _ _ hy1 hy2 (by norm_num) le_rfl (k1 + k2 - 1) ?_
    rw [hk2, ha]
    push_cast
    ring
  · rw [if_neg h]
    have hlt : normLoop2 (normLoop1 a) < 180 := lt_of_le_of_ne hx2 h
    refine wrap_unique _ _ hy1 hy2 (by linarith) (by linarith) (k1 + k2) ?_
    rw [hk2, hk1]
    push_cast
    ring

/-- C6: for every triple of (finite, real-valued) points, the output of
`calculate_angle` lies in the half-open interval `(-180, 180]`: strictly
greater than `-180` and at most `180`. -/
theorem calculate_angle_range (p1 p2 p3 : ℝ × ℝ) :
    -180 < calculate_angle p1 p2 p3 ∧ calculate_angle p1 p2 p3 ≤ 180 :=
  wrap_bounds _

/-- C10: swapping the outer arguments negates the turn angle, except on
the `180`-degree boundary which is fixed: if
`calculate_angle p1 p2 p3 = 180` then `calculate_angle p3 p2 p1 = 180`,
and otherwise `calculate_angle p3 p2 p1 = -(calculate_angle p1 p2 p3)`;
in particular within the open band a right turn flips to a non-right
turn and vice versa. -/
theorem calculate_angle_antisym (p1 p2 p3 : ℝ × ℝ) :
    calculate_angle p3 p2 p1 =
      if calculate_angle p1 p2 p3 = 180 then 180 else -(calculate_angle p1 p2 p3) := by
  have hdeg : degrees (atan2 (to_vec p2 p1).2 (to_vec p2 p1).1 -
        atan2 (to_vec p2 p3).2 (to_vec p2 p3).1) =
      -(degrees (atan2 (to_vec p2 p3).2 (to_vec p2 p3).1 -
        atan2 (to_vec p2 p1).2 (to_vec p2 p1).1)) := by
    unfold degrees
    ring
  show normLoop2 (normLoop1 (degrees (atan2 (to_vec p2 p1).2 (to_vec p2 p1).1 -
      atan2 (to_vec p2 p3).2 (to_vec p2 p3).1))) = _
  rw [hdeg]
  have hc : calculate_angle p1 p2 p3 =
      normLoop2 (normLoop1 (degrees (atan2 (to_vec p2 p3).2 (to_vec p2 p3).1 -
        atan2 (to_vec p2 p1).2 (to_vec p2 p1).1))) := rfl
  rw [hc]
  exact wrap_neg _

/-! ## The greedy loop on matrices without unreachable entries -/

theorem buildLoop_success (coords : List (ℝ × ℝ)) (matrix : List (List Cost)) (pen : ℚ)
    (hfin : ∀ i, i < matrix.length → ∀ j, j < matrix.length → entry matrix i j ≠ ⊤) :
    ∀ (k : ℕ) (uv ord : List ℕ) (cur : ℕ) (prev : Option ℕ),
      uv.length = k → (∀ x ∈ uv, x < matrix.length) → cur < matrix.length →
      ∃ rest, buildLoop coords matrix pen uv ord cur prev = some (ord ++ rest) ∧
        rest.Perm uv := by
  intro k
  induction k with
  | zero =>
    intro uv ord cur prev hlen hmem hcur
    have huv : uv = [] := List.length_eq_zero.1 hlen
    subst huv
    exact ⟨[], by rw [buildLoop_nil]; simp, List.Perm.refl []⟩
  | succ k ih =>
    intro uv ord cur prev hlen hmem hcur
    have hne : uv ≠ [] := by
      intro h
      rw [h] at hlen
      simp at hlen
    obtain ⟨u, hu⟩ : ∃ u, u ∈ uv := by
      cases uv with
      | nil => exact absurd rfl hne
      | cons a l => exact ⟨a, List.mem_cons_self a l⟩
    have hufin : stepCost coords matrix pen prev cur u ≠ ⊤ :=
      stepCost_ne_top coords matrix pen prev cur u (hfin cur hcur u (hmem u hu))
    obtain ⟨c, hcmem, hsel⟩ :=
      selectLoop_finds (stepCost coords matrix pen prev cur) uv ⊤ none
        ⟨u, hu, lt_top_iff_ne_top.2 hufin⟩
    rw [buildLoop_step coords matrix pen uv ord cur prev c hne hsel hcmem]
    have hlen2 : (uv.erase c).length = k := by
      rw [List.length_erase_of_mem hcmem, hlen]
      omega
    have hmem2 : ∀ x ∈ uv.erase c, x < matrix.length :=
      fun x hx => hmem x (List.mem_of_mem_erase hx)
    obtain ⟨rest, hres, hperm⟩ :=
      ih (uv.erase c) (ord ++ [c]) c (some cur) hlen2 hmem2 (hmem c hcmem)
    refine ⟨c :: rest, ?_, ?_⟩
    · rw [hres]
      simp
    · exact (hperm.cons c).trans (List.perm_cons_erase hcmem).symm

/-- C2 counterexample: a 2-waypoint input with a 2×2 matrix (the spec
admits the `inf` sentinel as a matrix value) on which `buildOrder`
returns no order at all — the single greedy step sees only `inf`
candidates, `next_city` stays `None`, and the call fails — so the
result is not a length-2 permutation starting at 0. -/
theorem buildOrder_perm_cex :
    ¬ ∃ ord, solve_tsp_nearest_neighbor_with_right_turn_penalty [(0, 0), (1, 1)]
      [[1, ⊤], [⊤, 1]] 500 = some ord := by
  rintro ⟨ord, h⟩
  have hnone : solve_tsp_nearest_neighbor_with_right_turn_penalty [(0, 0), (1, 1)]
      [[1, ⊤], [⊤, 1]] 500 = none := by
    show buildLoop [(0, 0), (1, 1)] [[1, ⊤], [⊤, 1]] 500 (List.range' 1 1) [0] 0 none = none
    exact buildLoop_fail _ _ _ _ _ _ _ (by decide) (by decide)
  rw [hnone] at h
  cases h

/-- C2 (amended): for every `n ≥ 1`, `n`-element coordinate list and
`n×n` matrix all of whose consulted entries are finite (not the `inf`
sentinel), `buildOrder` returns an order of length `n` that contains
each index `0..n-1` exactly once and whose first element is `0`.  (With
`inf` entries admitted, the selection step can fail as in the
counterexample.) -/
theorem buildOrder_perm_of_finite (coords : List (ℝ × ℝ)) (matrix : List (List Cost))
    (pen : ℚ) (hn : 1 ≤ matrix.length) (hcoords : coords.length = matrix.length)
    (hfin : ∀ i, i < matrix.length → ∀ j, j < matrix.length → entry matrix i j ≠ ⊤) :
    ∃ ord, solve_tsp_nearest_neighbor_with_right_turn_penalty coords matrix pen = some ord ∧
      ord.length = matrix.length ∧ ord.Perm (List.range matrix.length) ∧
      ord.head? = some 0 := by
  have hmem : ∀ x ∈ List.range' 1 (matrix.length - 1), x < matrix.length := by
    intro x hx
    have h := List.mem_range'_1.1 hx
    omega
  obtain ⟨rest, hres, hperm⟩ :=
    buildLoop_success coords matrix pen hfin (matrix.length - 1)
      (List.range' 1 (matrix.length - 1)) [0] 0 none (by simp) hmem
      (by omega)
  have hrange : List.range matrix.length = 0 :: List.range' 1 (matrix.length - 1) := by
    rw [List.range_eq_range']
    obtain ⟨m, hm⟩ : ∃ m, matrix.length = m + 1 := ⟨matrix.length - 1, by omega⟩
    rw [hm, List.range'_succ]
    simp
  refine ⟨0 :: rest, hres, ?_, ?_, rfl⟩
  · have h1 : rest.length = matrix.length - 1 := by
      rw [hperm.length_eq, List.length_range']
    simp only [List.length_cons, h1]
    omega
  · rw [hrange]
    exact hperm.cons 0

/-- Witness for C2: the amended theorem applied to a concrete
2-waypoint instance with finite costs. -/
theorem buildOrder_perm_of_finite_witness :
    (1 ≤ ([[0, 4], [4, 0]] : List (List Cost)).length ∧
      ([((0 : ℝ), (0 : ℝ)), (1, 0)] : List (ℝ × ℝ)).length =
        ([[0, 4], [4, 0]] : List (List Cost)).length ∧
      (∀ i, i < ([[0, 4], [4, 0]] : List (List Cost)).length →
        ∀ j, j < ([[0, 4], [4, 0]] : List (List Cost)).length →
          entry [[0, 4], [4, 0]] i j ≠ ⊤)) ∧
    (∃ ord, solve_tsp_nearest_neighbor_with_right_turn_penalty [((0 : ℝ), (0 : ℝ)), (1, 0)]
        [[0, 4], [4, 0]] 500 = some ord ∧
      ord.length = ([[0, 4], [4, 0]] : List (List Cost)).length ∧
      ord.Perm (List.range ([[0, 4], [4, 0]] : List (List Cost)).length) ∧
      ord.head? = some 0) :=
  ⟨⟨by decide, by decide, by decide⟩,
    buildOrder_perm_of_finite _ _ 500 (by decide) (by decide) (by decide)⟩

/-- C7 counterexample: a 3-waypoint instance whose first greedy step
sees only `inf` candidates.  The loop does not run `n - 1 = 2`
iterations appending one city each — it aborts during the first
iteration with a `KeyError` (no order of length 3 is produced). -/
theorem loop_iterations_cex :
    ¬ ∃ ord, solve_tsp_nearest_neighbor_with_right_turn_penalty
        [(0, 0), (1, 0), (2, 0)] [[0, ⊤, ⊤], [⊤, 0, ⊤], [⊤, ⊤, 0]] 500 = some ord ∧
      ord.length = 3 := by
  rintro ⟨ord, h, hlen⟩
  have hnone : solve_tsp_nearest_neighbor_with_right_turn_penalty
      [(0, 0), (1, 0), (2, 0)] [[0, ⊤, ⊤], [⊤, 0, ⊤], [⊤, ⊤, 0]] 500 = none := by
    show buildLoop [(0, 0), (1, 0), (2, 0)] [[0, ⊤, ⊤], [⊤, 0, ⊤], [⊤, ⊤, 0]] 500
      (List.range' 1 2) [0] 0 none = none
    exact buildLoop_fail _ _ _ _ _ _ _ (by decide) (by decide)
  rw [hnone] at h
  cases h

/-- C7 (amended): for every `n ≥ 1` and matrix whose consulted entries
are all finite, the selection loop terminates after exactly `n - 1`
iterations, appending exactly one city per iteration: the returned
order is the start `0` followed by exactly `n - 1` selected cities.
(When some step sees only `inf` candidates, the loop instead aborts
early with a `KeyError`, as in the counterexample.) -/
theorem loop_iterations_of_finite (coords : List (ℝ × ℝ)) (matrix : List (List Cost))
    (pen : ℚ) (hn : 1 ≤ matrix.length) (hcoords : coords.length = matrix.length)
    (hfin : ∀ i, i < matrix.length → ∀ j, j < matrix.length → entry matrix i j ≠ ⊤) :
    ∃ rest, solve_tsp_nearest_neighbor_with_right_turn_penalty coords matrix pen =
        some (0 :: rest) ∧ rest.length = matrix.length - 1 := by
  have hmem : ∀ x ∈ List.range' 1 (matrix.length - 1), x < matrix.length := by
    intro x hx
    have h := List.mem_range'_1.1 hx
    omega
  obtain ⟨rest, hres, hperm⟩ :=
    buildLoop_success coords matrix pen hfin (matrix.length - 1)
      (List.range' 1 (matrix.length - 1)) [0] 0 none (by simp) hmem
      (by omega)
  refine ⟨rest, hres, ?_⟩
  rw [hperm.length_eq, List.length_range']

/-- Witness for C7: the amended theorem applied to a concrete
2-waypoint instance with finite costs. -/
theorem loop_iterations_of_finite_witness :
    (1 ≤ ([[0, 6], [6, 0]] : List (List Cost)).length ∧
      ([((0 : ℝ), (0 : ℝ)), (0, 2)] : List (ℝ × ℝ)).length =
        ([[0, 6], [6, 0]] : List (List Cost)).length ∧
      (∀ i, i < ([[0, 6], [6, 0]] : List (List Cost)).length →
        ∀ j, j < ([[0, 6], [6, 0]] : List (List Cost)).length →
          entry [[0, 6], [6, 0]] i j ≠ ⊤)) ∧
    (∃ rest, solve_tsp_nearest_neighbor_with_right_turn_penalty [((0 : ℝ), (0 : ℝ)), (0, 2)]
        [[0, 6], [6, 0]] 500 = some (0 :: rest) ∧
      rest.length = ([[0, 6], [6, 0]] : List (List Cost)).length - 1) :=
  ⟨⟨by decide, by decide, by decide⟩,
    loop_iterations_of_finite _ _ 500 (by decide) (by decide) (by decide)⟩

/-! ## The greedy loop never consults the matrix diagonal -/

theorem buildLoop_congr (coords : List (ℝ × ℝ)) (pen : ℚ) (m1 m2 : List (List Cost))
    (hoff : ∀ i, i < m1.length → ∀ j, j < m1.length → i ≠ j → entry m1 i j = entry m2 i j) :
    ∀ (k : ℕ) (uv ord : List ℕ) (cur : ℕ) (prev : Option ℕ),
      uv.length = k → uv.Nodup → (∀ x ∈ uv, x < m1.length) → cur < m1.length →
      cur ∉ uv →
      buildLoop coords m1 pen uv ord cur prev = buildLoop coords m2 pen uv ord cur prev := by
  intro k
  induction k with
  | zero =>
    intro uv ord cur prev hlen _ _ _ _
    have huv : uv = [] := List.length_eq_zero.1 hlen
    subst huv
    rw [buildLoop_nil, buildLoop_nil]
  | succ k ih =>
    intro uv ord cur prev hlen hnodup hmem hcur hnotin
    have hne : uv ≠ [] := by
      intro h
      rw [h] at hlen
      simp at hlen
    have hcongr : ∀ x ∈ uv, stepCost coords m1 pen prev cur x =
        stepCost coords m2 pen prev cur x := by
      intro x hx
      exact stepCost_congr coords m1 m2 pen prev cur x
        (hoff cur hcur x (hmem x hx) (fun heq => hnotin (heq ▸ hx)))
    have hsel : selectLoop (stepCost coords m1 pen prev cur) uv ⊤ none =
        selectLoop (stepCost coords m2 pen prev cur) uv ⊤ none :=
      selectLoop_congr _ _ uv ⊤ none hcongr
    cases hwin : (selectLoop (stepCost coords m1 pen prev cur) uv ⊤ none).2 with
    | none =>
      rw [buildLoop_fail coords m1 pen uv ord cur prev hne hwin,
        buildLoop_fail coords m2 pen uv ord cur prev hne (by rw [← hsel]; exact hwin)]
    | some c =>
      have hwin2 : (selectLoop (stepCost coords m2 pen prev cur) uv ⊤ none).2 = some c := by
        rw [← hsel]
        exact hwin
      have hcmem : c ∈ uv := by
        rcases selectLoop_mem _ uv ⊤ none c hwin with h | h
        · exact h
        · cases h
      rw [buildLoop_step coords m1 pen uv ord cur prev c hne hwin hcmem,
        buildLoop_step coords m2 pen uv ord cur prev c hne hwin2 hcmem]
      apply ih (uv.erase c) (ord ++ [c]) c (some cur)
      · rw [List.length_erase_of_mem hcmem, hlen]
        omega
      · exact hnodup.erase c
      · exact fun x hx => hmem x (List.mem_of_mem_erase hx)
      · exact hmem c hcmem
      · intro hc
        exact ((List.Nodup.mem_erase_iff hnodup).1 hc).1 rfl

/-- C9: `buildOrder` never consults the diagonal of the cost matrix:
two matrices of the same size that agree on all off-diagonal entries
(but may differ arbitrarily on the diagonal entries `matrix[i][i]`)
produce the identical order. -/
theorem diagonal_noninterference (coords : List (ℝ × ℝ)) (pen : ℚ)
    (m1 m2 : List (List Cost)) (hlen : m1.length = m2.length)
    (hoff : ∀ i, i < m1.length → ∀ j, j < m1.length → i ≠ j → entry m1 i j = entry m2 i j) :
    solve_tsp_nearest_neighbor_with_right_turn_penalty coords m1 pen =
      solve_tsp_nearest_neighbor_with_right_turn_penalty coords m2 pen := by
  by_cases hn : m1.length = 0
  · have h2 : m2.length = 0 := by omega
    have e1 : solve_tsp_nearest_neighbor_with_right_turn_penalty coords m1 pen = some [0] := by
      show buildLoop coords m1 pen (List.range' 1 (m1.length - 1)) [0] 0 none = some [0]
      rw [hn]
      exact buildLoop_nil coords m1 pen [0] 0 none
    have e2 : solve_tsp_nearest_neighbor_with_right_turn_penalty coords m2 pen = some [0] := by
      show buildLoop coords m2 pen (List.range' 1 (m2.length - 1)) [0] 0 none = some [0]
      rw [h2]
      exact buildLoop_nil coords m2 pen [0] 0 none
    rw [e1, e2]
  · show buildLoop coords m1 pen (List.range' 1 (m1.length - 1)) [0] 0 none =
      buildLoop coords m2 pen (List.range' 1 (m2.length - 1)) [0] 0 none
    rw [← hlen]
    apply buildLoop_congr coords pen m1 m2 hoff (m1.length - 1)
      (List.range' 1 (m1.length - 1)) [0] 0 none
    · simp
    · exact List.nodup_range' _ _
    · intro x hx
      have h := List.mem_range'_1.1 hx
      omega
    · omega
    · intro hx
      have h := List.mem_range'_1.1 hx
      omega

/-- Witness for C9: two concrete 2×2 matrices agreeing off the diagonal
and differing on it yield the same order. -/
theorem diagonal_noninterference_witness :
    (([[0, 5], [5, 0]] : List (List Cost)).length =
        ([[7, 5], [5, 9]] : List (List Cost)).length ∧
      (∀ i, i < ([[0, 5], [5, 0]] : List (List Cost)).length →
        ∀ j, j < ([[0, 5], [5, 0]] : List (List Cost)).length → i ≠ j →
          entry [[0, 5], [5, 0]] i j = entry [[7, 5], [5, 9]] i j)) ∧
    solve_tsp_nearest_neighbor_with_right_turn_penalty [((0 : ℝ), (0 : ℝ)), (1, 1)]
        [[0, 5], [5, 0]] 500 =
      solve_tsp_nearest_neighbor_with_right_turn_penalty [((0 : ℝ), (0 : ℝ)), (1, 1)]
        [[7, 5], [5, 9]] 500 :=
  ⟨⟨by decide, by decide⟩,
    diagonal_noninterference _ 500 _ _ (by decide) (by decide)⟩

/-- C4: `buildOrder` is deterministic — identical inputs give the
identical order — and, inside each greedy step, the winning city is
uniquely the first candidate in scan order attaining the minimal
(penalized) cost, because the best-so-far is replaced only on strict
improvement: the winner's cost is a minimum over all candidates and is
strictly below the cost of every earlier candidate. -/
theorem buildOrder_deterministic_first_min :
    (∀ (coords : List (ℝ × ℝ)) (matrix : List (List Cost)) (pen : ℚ),
      solve_tsp_nearest_neighbor_with_right_turn_penalty coords matrix pen =
        solve_tsp_nearest_neighbor_with_right_turn_penalty coords matrix pen) ∧
    (∀ (coords : List (ℝ × ℝ)) (matrix : List (List Cost)) (pen : ℚ)
      (prev : Option ℕ) (cur : ℕ) (l : List ℕ) (c : ℕ),
      (selectLoop (stepCost coords matrix pen prev cur) l ⊤ none).2 = some c →
      ∃ i, i < l.length ∧ l.getD i 0 = c ∧
        (∀ j, j < l.length → stepCost coords matrix pen prev cur c ≤
          stepCost coords matrix pen prev cur (l.getD j 0)) ∧
        (∀ j, j < i → stepCost coords matrix pen prev cur c <
          stepCost coords matrix pen prev cur (l.getD j 0))) := by
  constructor
  · intro coords matrix pen
    rfl
  · intro coords matrix pen prev cur l c h
    rcases selectLoop_first_min (stepCost coords matrix pen prev cur) l ⊤ none c h with
      ⟨_, heq⟩ | ⟨i, hi, hgi, _, hle, hfirst⟩
    · cases heq
    · exact ⟨i, hi, hgi, hle, hfirst⟩

/-- Witness for C4: a concrete tied step — both candidates cost 7 from
city 0 — where the scan selects city 1, the first candidate. -/
theorem buildOrder_deterministic_first_min_witness :
    ((selectLoop (stepCost [((0 : ℝ), (0 : ℝ)), (1, 0), (0, 1)]
        [[0, 7, 7], [7, 0, 7], [7, 7, 0]] 500 none 0) [1, 2] ⊤ none).2 = some 1) ∧
    (∃ i, i < ([1, 2] : List ℕ).length ∧ ([1, 2] : List ℕ).getD i 0 = 1 ∧
      (∀ j, j < ([1, 2] : List ℕ).length →
        stepCost [((0 : ℝ), (0 : ℝ)), (1, 0), (0, 1)] [[0, 7, 7], [7, 0, 7], [7, 7, 0]]
            500 none 0 1 ≤
          stepCost [((0 : ℝ), (0 : ℝ)), (1, 0), (0, 1)] [[0, 7, 7], [7, 0, 7], [7, 7, 0]]
            500 none 0 (([1, 2] : List ℕ).getD j 0)) ∧
      (∀ j, j < i →
        stepCost [((0 : ℝ), (0 : ℝ)), (1, 0), (0, 1)] [[0, 7, 7], [7, 0, 7], [7, 7, 0]]
            500 none 0 1 <
          stepCost [((0 : ℝ), (0 : ℝ)), (1, 0), (0, 1)] [[0, 7, 7], [7, 0, 7], [7, 7, 0]]
            500 none 0 (([1, 2] : List ℕ).getD j 0))) :=
  ⟨by decide,
    buildOrder_deterministic_first_min.2 _ _ 500 none 0 [1, 2] 1 (by decide)⟩

/-- Witness for C5: the penalty characterization applied at a concrete
step with a finite matrix entry and the default nonzero penalty. -/
theorem penalty_applied_iff_right_turn_witness :
    ((500 : ℚ) ≠ 0 ∧ entry [[0, 3], [3, 0]] 0 1 ≠ ⊤) ∧
    (stepCost [((0 : ℝ), (0 : ℝ)), (1, 1)] [[0, 3], [3, 0]] 500 (some 0) 0 1 =
        entry [[0, 3], [3, 0]] 0 1 + ((500 : ℚ) : Cost) ↔
      (-135 < calculate_angle (([((0 : ℝ), (0 : ℝ)), (1, 1)] : List (ℝ × ℝ)).getD 0 (0, 0))
          (([((0 : ℝ), (0 : ℝ)), (1, 1)] : List (ℝ × ℝ)).getD 0 (0, 0))
          (([((0 : ℝ), (0 : ℝ)), (1, 1)] : List (ℝ × ℝ)).getD 1 (0, 0)) ∧
        calculate_angle (([((0 : ℝ), (0 : ℝ)), (1, 1)] : List (ℝ × ℝ)).getD 0 (0, 0))
          (([((0 : ℝ), (0 : ℝ)), (1, 1)] : List (ℝ × ℝ)).getD 0 (0, 0))
          (([((0 : ℝ), (0 : ℝ)), (1, 1)] : List (ℝ × ℝ)).getD 1 (0, 0)) < -45)) :=
  ⟨⟨by decide, by decide⟩,
    penalty_applied_iff_right_turn.2 _ _ 500 0 0 1 (by decide) (by decide)⟩
